import Mathlib

/-!
Shallow embedding of the `chat_htm` repository core (encoders, chunkers,
runtime accuracy counters) and proofs about it.

Sources embedded:
- `src/encoders/scalar_encoder.hpp` (`ScalarEncoder`)
- `src/encoders/word_row_encoder.hpp` (`WordRowEncoder`)
- `src/text/text_chunker.hpp` (`TextChunker`)
- `src/text/word_chunker.hpp` (`WordChunker`)
- `src/runtime/text_runtime.cpp` (`TextRuntime` prediction-accuracy counters)

Machine integers are modelled as `Nat`/`Int`; where C++ wraps an unsigned
64-bit quantity the wrap `% 2^64` is written explicitly.  The one floating
point computation in the code (the scalar encoder's window start,
`(double)(value - min) / range * num_buckets + 0.5` truncated to `int`) is
modelled by exact rational arithmetic, i.e. as
`⌊(value-min)·num_buckets/range + 1/2⌋ = (2·(value-min)·num_buckets + range) / (2·range)`
in natural-number division, the round-half-up rule the code's comment and
the spec describe.
-/

namespace ChatHtm

/-- Write `1` into `len` consecutive entries of `sdr` beginning at `start`:
the embedding of the C++ loop `for (i = start; i < start + len; ++i) sdr[i] = 1`. -/
def setOnes (sdr : List Nat) (start : Nat) : Nat → List Nat
  | 0 => sdr
  | len + 1 => setOnes (sdr.set start 1) (start + 1) len

theorem length_setOnes (start : Nat) : ∀ (len : Nat) (sdr : List Nat),
    (setOnes sdr start len).length = sdr.length := by
  intro len
  induction len generalizing start with
  | zero => intro sdr; rfl
  | succ k ih =>
    intro sdr
    simp only [setOnes, ih, List.length_set]

theorem getD_setOnes : ∀ (len : Nat) (sdr : List Nat) (start i : Nat),
    (setOnes sdr start len).getD i 0 =
      if start ≤ i ∧ i < start + len ∧ i < sdr.length then 1 else sdr.getD i 0 := by
  intro len
  induction len with
  | zero =>
    intro sdr start i
    have h : ¬ (start ≤ i ∧ i < start + 0 ∧ i < sdr.length) := by omega
    rw [setOnes, if_neg h]
  | succ k ih =>
    intro sdr start i
    rw [setOnes, ih]
    simp only [List.length_set]
    by_cases hi : i = start
    · subst hi
      rw [if_neg (by omega)]
      by_cases hlt : i < sdr.length
      · rw [if_pos ⟨le_refl _, by omega, hlt⟩]
        simp [List.getElem?_set_self hlt]
      · rw [if_neg (by omega), List.set_eq_of_length_le (by omega)]
    · have hset : (sdr.set start 1).getD i 0 = sdr.getD i 0 := by
        simp [List.getElem?_set_ne (show start ≠ i by omega)]
      rw [hset]
      by_cases hc : start + 1 ≤ i ∧ i < start + 1 + k ∧ i < sdr.length
      · rw [if_pos hc, if_pos (by omega)]
      · rw [if_neg hc, if_neg (by omega)]

/-! ## ScalarEncoder (`src/encoders/scalar_encoder.hpp`) -/

/-- The struct `ScalarEncoder::Params`.  In the C++ all four fields are `int`; the
constructor's `validate()` rejects `n <= 0`, `w <= 0`, `w > n` and
`max_val < min_val`, so `n` and `w` are modelled as `Nat` (their validated
values are positive) while the value range stays over `Int`. -/
structure ScalarParams where
  n : Nat
  w : Nat
  min_val : Int
  max_val : Int
deriving Repr, DecidableEq

/-- The conjunction of checks in `ScalarEncoder::validate()`. -/
def ScalarParams.valid (p : ScalarParams) : Prop :=
  0 < p.n ∧ 0 < p.w ∧ p.w ≤ p.n ∧ p.min_val ≤ p.max_val

instance (p : ScalarParams) : Decidable p.valid := by
  unfold ScalarParams.valid; infer_instance

/-- The field `num_buckets_ = n - w` computed in the `ScalarEncoder` constructor. -/
def ScalarParams.num_buckets (p : ScalarParams) : Nat := p.n - p.w

/-- The field `range_ = max_val - min_val` computed in the `ScalarEncoder` constructor
(stored as `double` in C++; it is an exact integer). -/
def ScalarParams.range (p : ScalarParams) : Nat := (p.max_val - p.min_val).toNat

/-- The clamp at the top of `ScalarEncoder::encode`:
`if (value < min_val) value = min_val; if (value > max_val) value = max_val;`. -/
def ScalarParams.clamp (p : ScalarParams) (value : Int) : Int :=
  let v := if value < p.min_val then p.min_val else value
  if v > p.max_val then p.max_val else v

/-- The window-start computation of `ScalarEncoder::encode` for an already
clamped value `v`:
`start = (int)((double)(v - min_val) / range_ * num_buckets_ + 0.5)` when
`range_ > 0` (else `0`), then `if (start > num_buckets_) start = num_buckets_`.
The round-half-up of the double expression is modelled exactly as
`(2·(v-min)·num_buckets + range) / (2·range)` in `Nat` floor division. -/
def ScalarParams.startFor (p : ScalarParams) (v : Int) : Nat :=
  let x : Nat := (v - p.min_val).toNat
  let start : Nat :=
    if 0 < p.range then (2 * x * p.num_buckets + p.range) / (2 * p.range) else 0
  if start > p.num_buckets then p.num_buckets else start

/-- The start of the active window `encode` uses for an arbitrary (unclamped)
input value. -/
def ScalarParams.windowStart (p : ScalarParams) (value : Int) : Nat :=
  p.startFor (p.clamp value)

/-- The method `ScalarEncoder::encode`: a zero vector of length `n` with the `w` bits
`[start, start + w)` set to 1. -/
def ScalarParams.encode (p : ScalarParams) (value : Int) : List Nat :=
  setOnes (List.replicate p.n 0) (p.windowStart value) p.w

theorem clamp_mem (p : ScalarParams) (hv : p.min_val ≤ p.max_val) (value : Int) :
    p.min_val ≤ p.clamp value ∧ p.clamp value ≤ p.max_val := by
  unfold ScalarParams.clamp
  dsimp only
  split_ifs <;> omega

theorem ite_clamp_le (a b : Nat) : (if a > b then b else a) ≤ b := by
  split <;> omega

theorem startFor_le (p : ScalarParams) (v : Int) : p.startFor v ≤ p.num_buckets := by
  unfold ScalarParams.startFor
  exact ite_clamp_le _ _

/-- Running `setOnes` on a zero vector produces the explicit three-block list,
provided the window fits. -/
theorem setOnes_replicate (n start w : Nat) (h : start + w ≤ n) :
    setOnes (List.replicate n 0) start w =
      List.replicate start 0 ++ List.replicate w 1 ++ List.replicate (n - start - w) 0 := by
  have key : ∀ (w : Nat) (pre : List Nat) (m : Nat), w ≤ m →
      setOnes (pre ++ List.replicate m 0) pre.length w =
        pre ++ List.replicate w 1 ++ List.replicate (m - w) 0 := by
    intro w
    induction w with
    | zero =>
      intro pre m _
      simp [setOnes]
    | succ k ih =>
      intro pre m hm
      have hmpos : 0 < m := by omega
      obtain ⟨m', rfl⟩ : ∃ m', m = m' + 1 := ⟨m - 1, by omega⟩
      rw [setOnes]
      have hset : (pre ++ List.replicate (m' + 1) 0).set pre.length 1 =
          (pre ++ [1]) ++ List.replicate m' 0 := by
        rw [List.set_append_right _ _ (le_refl _)]
        simp [List.replicate_succ]
      rw [hset]
      have hlen : pre.length + 1 = (pre ++ [1]).length := by simp
      rw [hlen, ih (pre ++ [1]) m' (by omega)]
      simp [List.replicate_succ, List.append_assoc]
  have h0 : List.replicate n (0 : Nat) =
      List.replicate start 0 ++ List.replicate (n - start) 0 := by
    rw [List.append_replicate_replicate]
    congr 1
    omega
  have hkey := key w (List.replicate start 0) (n - start) (by omega)
  simp only [List.length_replicate] at hkey
  rw [h0, hkey]

/-- The shape of every encoding: `start` zeros, `w` ones, then zeros up to
length `n`. -/
theorem encode_eq_blocks (p : ScalarParams) (h : p.valid) (value : Int) :
    p.encode value =
      List.replicate (p.windowStart value) 0 ++ List.replicate p.w 1 ++
        List.replicate (p.n - p.windowStart value - p.w) 0 := by
  have hle : p.windowStart value + p.w ≤ p.n := by
    have h1 : p.windowStart value ≤ p.num_buckets := startFor_le p _
    have h2 : p.w ≤ p.n := h.2.2.1
    unfold ScalarParams.num_buckets at h1
    omega
  exact setOnes_replicate p.n (p.windowStart value) p.w hle

theorem clamp_lt_min (p : ScalarParams) (h : p.min_val ≤ p.max_val) {v : Int}
    (hv : v < p.min_val) : p.clamp v = p.min_val := by
  unfold ScalarParams.clamp
  dsimp only
  split_ifs <;> omega

theorem clamp_gt_max (p : ScalarParams) (h : p.min_val ≤ p.max_val) {v : Int}
    (hv : v > p.max_val) : p.clamp v = p.max_val := by
  unfold ScalarParams.clamp
  dsimp only
  split_ifs <;> omega

theorem clamp_self (p : ScalarParams) {v : Int} (h1 : p.min_val ≤ v) (h2 : v ≤ p.max_val) :
    p.clamp v = v := by
  unfold ScalarParams.clamp
  dsimp only
  split_ifs <;> omega

theorem clamp_mono (p : ScalarParams) {a b : Int} (hab : a ≤ b) : p.clamp a ≤ p.clamp b := by
  unfold ScalarParams.clamp
  dsimp only
  split_ifs <;> omega

theorem startFor_mono (p : ScalarParams) {a b : Int} (hab : a ≤ b) :
    p.startFor a ≤ p.startFor b := by
  unfold ScalarParams.startFor
  dsimp only
  have hx : (a - p.min_val).toNat ≤ (b - p.min_val).toNat := by omega
  have hs : (if 0 < p.range then
        (2 * (a - p.min_val).toNat * p.num_buckets + p.range) / (2 * p.range) else 0) ≤
      (if 0 < p.range then
        (2 * (b - p.min_val).toNat * p.num_buckets + p.range) / (2 * p.range) else 0) := by
    split
    · exact Nat.div_le_div_right (by nlinarith)
    · exact le_refl _
  generalize (if 0 < p.range then
      (2 * (a - p.min_val).toNat * p.num_buckets + p.range) / (2 * p.range) else 0) = sa at hs ⊢
  generalize (if 0 < p.range then
      (2 * (b - p.min_val).toNat * p.num_buckets + p.range) / (2 * p.range) else 0) = sb at hs ⊢
  split <;> split <;> omega

theorem startFor_min (p : ScalarParams) (h : p.valid) : p.startFor p.min_val = 0 := by
  unfold ScalarParams.startFor
  dsimp only
  have hx : (p.min_val - p.min_val).toNat = 0 := by omega
  rw [hx]
  by_cases hr : 0 < p.range
  · rw [if_pos hr]
    have hdiv : (2 * 0 * p.num_buckets + p.range) / (2 * p.range) = 0 :=
      Nat.div_eq_of_lt (by omega)
    rw [hdiv, if_neg (by omega)]
  · rw [if_neg hr, if_neg (by omega)]

theorem startFor_max (p : ScalarParams) (h : p.valid) (hr : 0 < p.range) :
    p.startFor p.max_val = p.num_buckets := by
  unfold ScalarParams.startFor
  dsimp only
  have hx : (p.max_val - p.min_val).toNat = p.range := rfl
  rw [hx, if_pos hr]
  have hdiv : (2 * p.range * p.num_buckets + p.range) / (2 * p.range) = p.num_buckets := by
    rw [Nat.add_comm, Nat.add_mul_div_left _ _ (show 0 < 2 * p.range by omega),
      Nat.div_eq_of_lt (by omega)]
    omega
  rw [hdiv, if_neg (by omega)]

/-- C1: for every valid `ScalarEncoder` configuration (`n > 0`, `0 < w ≤ n`,
`max_val ≥ min_val`) and every integer input value, `encode(value)` returns a
vector of length exactly `n` whose population count (number of 1 entries) is
exactly `w`. -/
theorem scalar_encode_length_and_popcount (p : ScalarParams) (h : p.valid) (value : Int) :
    (p.encode value).length = p.n ∧ (p.encode value).count 1 = p.w := by
  rw [encode_eq_blocks p h value]
  have hwn : p.w ≤ p.n := h.2.2.1
  have hle : p.windowStart value + p.w ≤ p.n := by
    have h1 : p.windowStart value ≤ p.num_buckets := startFor_le p _
    unfold ScalarParams.num_buckets at h1
    omega
  constructor
  · simp only [List.length_append, List.length_replicate]
    omega
  · simp [List.count_replicate]

/-- Witness for C1 at the configuration `{n=400, w=21, min=0, max=127}` and
input value 65. -/
theorem scalar_encode_length_and_popcount_witness :
    (ScalarParams.mk 400 21 0 127).valid ∧
      ((ScalarParams.mk 400 21 0 127).encode 65).length = 400 ∧
      ((ScalarParams.mk 400 21 0 127).encode 65).count 1 = 21 :=
  ⟨by decide, scalar_encode_length_and_popcount (ScalarParams.mk 400 21 0 127) (by decide) 65⟩

/-- C4 counterexample: the claim asserts that for every valid configuration
`encode(max_val)` activates exactly bits `[n-w, n)`.  The configuration
`{n=2, w=1, min_val=0, max_val=0}` is valid (a degenerate range is allowed),
yet `encode(max_val) = encode(0) = [1, 0]`, whose active bit is bit 0, not
bit `n-w = 1`: the degenerate range puts the window at bucket 0. -/
theorem scalar_encode_max_degenerate_counterexample :
    (ScalarParams.mk 2 1 0 0).valid ∧
      (ScalarParams.mk 2 1 0 0).encode ((ScalarParams.mk 2 1 0 0).max_val) = [1, 0] ∧
      (ScalarParams.mk 2 1 0 0).encode ((ScalarParams.mk 2 1 0 0).max_val) ≠ [0, 1] := by
  refine ⟨by decide, ?_, ?_⟩ <;> decide

/-- C4 (amended): for every valid configuration, `encode(min_val)` is the SDR
with exactly bits `[0, w)` set; when `min_val < max_val`, `encode(max_val)` is
the SDR with exactly bits `[n-w, n)` set; when `min_val = max_val` the window
start is bucket 0, so `encode(max_val)` equals `encode(min_val)` (bits
`[0, w)`). -/
theorem scalar_encode_endpoints_amended (p : ScalarParams) (h : p.valid) :
    p.encode p.min_val = List.replicate p.w 1 ++ List.replicate (p.n - p.w) 0 ∧
      (p.min_val < p.max_val →
        p.encode p.max_val = List.replicate (p.n - p.w) 0 ++ List.replicate p.w 1) ∧
      (p.min_val = p.max_val → p.encode p.max_val = p.encode p.min_val) := by
  have hmin : p.windowStart p.min_val = 0 := by
    unfold ScalarParams.windowStart
    rw [clamp_self p (le_refl _) h.2.2.2, startFor_min p h]
  refine ⟨?_, ?_, ?_⟩
  · rw [encode_eq_blocks p h, hmin]
    simp
  · intro hlt
    have hr : 0 < p.range := by
      unfold ScalarParams.range
      omega
    have hmax : p.windowStart p.max_val = p.num_buckets := by
      unfold ScalarParams.windowStart
      rw [clamp_self p h.2.2.2 (le_refl _), startFor_max p h hr]
    rw [encode_eq_blocks p h, hmax]
    unfold ScalarParams.num_buckets
    have hwn : p.w ≤ p.n := h.2.2.1
    have hzero : p.n - (p.n - p.w) - p.w = 0 := by omega
    rw [hzero]
    simp
  · intro heq
    rw [heq]

/-- Witness for C4 (amended) at `{n=20, w=5, min=0, max=9}`. -/
theorem scalar_encode_endpoints_amended_witness :
    (ScalarParams.mk 20 5 0 9).valid ∧
      (ScalarParams.mk 20 5 0 9).encode 0 = List.replicate 5 1 ++ List.replicate 15 0 :=
  ⟨by decide, (scalar_encode_endpoints_amended (ScalarParams.mk 20 5 0 9) (by decide)).1⟩

/-- C5: for every valid configuration and all integer values `a ≤ b`, the
start index of the active-bit window of `encode(a)` is at most that of
`encode(b)` (the window never moves left as the value increases); the two
`windowStart` values are exactly where `encode` places its runs of ones. -/
theorem scalar_windowStart_monotone (p : ScalarParams) (h : p.valid) {a b : Int}
    (hab : a ≤ b) :
    p.windowStart a ≤ p.windowStart b ∧
      p.encode a = List.replicate (p.windowStart a) 0 ++ List.replicate p.w 1 ++
        List.replicate (p.n - p.windowStart a - p.w) 0 ∧
      p.encode b = List.replicate (p.windowStart b) 0 ++ List.replicate p.w 1 ++
        List.replicate (p.n - p.windowStart b - p.w) 0 :=
  ⟨startFor_mono p (clamp_mono p hab), encode_eq_blocks p h a, encode_eq_blocks p h b⟩

/-- Witness for C5 at `{n=20, w=5, min=0, max=9}`, `a = 3 ≤ b = 7`. -/
theorem scalar_windowStart_monotone_witness :
    ((ScalarParams.mk 20 5 0 9).valid ∧ (3 : Int) ≤ 7) ∧
      (ScalarParams.mk 20 5 0 9).windowStart 3 ≤ (ScalarParams.mk 20 5 0 9).windowStart 7 :=
  ⟨⟨by decide, by decide⟩,
    (scalar_windowStart_monotone (ScalarParams.mk 20 5 0 9) (by decide)
      (show (3 : Int) ≤ 7 by decide)).1⟩

/-- C6: `encode` is total and clamps silently: for every `v < min_val`,
`encode(v) = encode(min_val)`, and for every `v > max_val`,
`encode(v) = encode(max_val)`. -/
theorem scalar_encode_clamps_out_of_range (p : ScalarParams) (h : p.valid) (v : Int) :
    (v < p.min_val → p.encode v = p.encode p.min_val) ∧
      (v > p.max_val → p.encode v = p.encode p.max_val) := by
  constructor
  · intro hv
    unfold ScalarParams.encode ScalarParams.windowStart
    rw [clamp_lt_min p h.2.2.2 hv, clamp_self p (le_refl _) h.2.2.2]
  · intro hv
    unfold ScalarParams.encode ScalarParams.windowStart
    rw [clamp_gt_max p h.2.2.2 hv, clamp_self p h.2.2.2 (le_refl _)]

/-- Witness for C6 at `{n=20, w=5, min=0, max=9}` with the out-of-range
inputs `-3` and `12`. -/
theorem scalar_encode_clamps_out_of_range_witness :
    (ScalarParams.mk 20 5 0 9).valid ∧
      (ScalarParams.mk 20 5 0 9).encode (-3) = (ScalarParams.mk 20 5 0 9).encode 0 ∧
      (ScalarParams.mk 20 5 0 9).encode 12 = (ScalarParams.mk 20 5 0 9).encode 9 :=
  ⟨by decide,
    (scalar_encode_clamps_out_of_range (ScalarParams.mk 20 5 0 9) (by decide) (-3)).1
      (by decide),
    (scalar_encode_clamps_out_of_range (ScalarParams.mk 20 5 0 9) (by decide) 12).2
      (by decide)⟩

/-! ## TextChunker / WordChunker cursors
(`src/text/text_chunker.hpp`, `src/text/word_chunker.hpp`) -/

/-- The cursor state shared by `TextChunker` and `WordChunker`: the immutable
symbol sequence (`text_` resp. `words_`) together with `pos_`, `epoch_` and
`total_steps_`.  For `TextChunker` a symbol is a byte (`α = Nat`, the
`unsigned char` value); for `WordChunker` it is a token (`α = List Nat`). -/
structure Chunker (α : Type) where
  symbols : List α
  pos : Nat
  epoch : Nat
  total_steps : Nat
deriving Repr, DecidableEq

/-- The method `next()` of both chunkers (the two method bodies are identical):
read `symbols[pos]`, then `++pos_; ++total_steps_;
if (pos_ >= size) { pos_ = 0; ++epoch_; }`; the read value is returned. -/
def Chunker.next [Inhabited α] (c : Chunker α) : α × Chunker α :=
  let value := c.symbols.getD c.pos default
  let pos' := c.pos + 1
  let steps' := c.total_steps + 1
  if pos' ≥ c.symbols.length then
    (value, { c with pos := 0, epoch := c.epoch + 1, total_steps := steps' })
  else
    (value, { c with pos := pos', total_steps := steps' })

/-- C3: for either chunker over a symbol sequence of length `L ≥ 1`, in any
state with `pos ∈ [0, L)`, `next()` returns the symbol at index `pos`, leaves
the sequence unchanged, moves the position to `(pos + 1) mod L`, increments
`epoch` exactly when `pos + 1 = L`, increments `total_steps` unconditionally,
and the new position is again in `[0, L)`. -/
theorem chunker_next_step {α : Type} [Inhabited α] (c : Chunker α)
    (h : c.pos < c.symbols.length) :
    c.next.1 = c.symbols.get ⟨c.pos, h⟩ ∧
      c.next.2.symbols = c.symbols ∧
      c.next.2.pos = (c.pos + 1) % c.symbols.length ∧
      c.next.2.epoch = (if c.pos + 1 = c.symbols.length then c.epoch + 1 else c.epoch) ∧
      c.next.2.total_steps = c.total_steps + 1 ∧
      c.next.2.pos < c.symbols.length := by
  unfold Chunker.next
  dsimp only
  have hval : c.symbols.getD c.pos default = c.symbols.get ⟨c.pos, h⟩ := by
    rw [List.getD_eq_getElem?_getD, List.getElem?_eq_getElem h]
    rfl
  by_cases hwrap : c.pos + 1 ≥ c.symbols.length
  · have heq : c.pos + 1 = c.symbols.length := by omega
    rw [if_pos hwrap]
    refine ⟨hval, rfl, ?_, ?_, rfl, by dsimp only; omega⟩
    · rw [heq, Nat.mod_self]
    · rw [if_pos heq]
  · rw [if_neg hwrap]
    refine ⟨hval, rfl, ?_, ?_, rfl, show c.pos + 1 < c.symbols.length by omega⟩
    · rw [Nat.mod_eq_of_lt (by omega)]
    · rw [if_neg (by omega)]

/-- Witness for C3: the chunker over "ab" at position 1 wraps to position 0
and increments the epoch. -/
theorem chunker_next_step_witness :
    (1 < (Chunker.mk [97, 98] 1 0 5 : Chunker Nat).symbols.length) ∧
      (Chunker.mk [97, 98] 1 0 5 : Chunker Nat).next.1 =
        (Chunker.mk [97, 98] 1 0 5 : Chunker Nat).symbols.get ⟨1, by decide⟩ ∧
      (Chunker.mk [97, 98] 1 0 5 : Chunker Nat).next.2.symbols = [97, 98] ∧
      (Chunker.mk [97, 98] 1 0 5 : Chunker Nat).next.2.pos = (1 + 1) % 2 ∧
      (Chunker.mk [97, 98] 1 0 5 : Chunker Nat).next.2.epoch =
        (if 1 + 1 = 2 then 0 + 1 else 0) ∧
      (Chunker.mk [97, 98] 1 0 5 : Chunker Nat).next.2.total_steps = 5 + 1 ∧
      (Chunker.mk [97, 98] 1 0 5 : Chunker Nat).next.2.pos < 2 :=
  ⟨by decide, chunker_next_step (Chunker.mk [97, 98] 1 0 5) (by decide)⟩

/-- The method `TextChunker::peek_at(int offset)`:
`auto idx = (pos_ + static_cast<std::size_t>(offset)) % text_.size();
return text_[idx];`.
The conversion of the signed `offset` to `std::size_t` and the `size_t`
addition both wrap modulo `2^64`, written explicitly here. -/
def Chunker.peek_at (c : Chunker Nat) (offset : Int) : Nat :=
  let off64 : Nat := (offset % (2 ^ 64 : Int)).toNat
  let idx := (c.pos + off64) % 2 ^ 64 % c.symbols.length
  c.symbols.getD idx 0

/-- C9 counterexample: over the text "abc" (`L = 3`) at position 0,
`peek_at(-1)` should by the claim return the symbol at
`(0 + (-1)) mod 3 = 2`, i.e. `'c'` (99).  The code converts `-1` to the
unsigned value `2^64 - 1`, and since `2^64 ≡ 1 (mod 3)` the computed index is
`0`, so it returns `'a'` (97) instead. -/
theorem text_chunker_peek_at_negative_counterexample :
    Chunker.peek_at (Chunker.mk [97, 98, 99] 0 0 0) (-1) = 97 ∧
      (Chunker.mk [97, 98, 99] 0 0 0 : Chunker Nat).symbols.getD
        ((((0 : Int) + (-1)) % 3).toNat) 0 = 99 ∧
      (97 : Nat) ≠ 99 := by
  refine ⟨?_, by decide, by decide⟩
  decide

/-- C9 (amended): for every non-negative offset (any actual `int` offset
satisfies `pos + offset < 2^64`), `peek_at(offset)` returns the symbol at
index `(position + offset) mod L`; being a pure function of the state, it
mutates nothing.  For negative offsets the conversion to `size_t` makes the
index `(position + offset + 2^64) mod 2^64 mod L`, which in general differs
from `(position + offset) mod L`. -/
theorem text_chunker_peek_at_amended (c : Chunker Nat) (offset : Int)
    (hoff : 0 ≤ offset) (hfit : c.pos + offset.toNat < 2 ^ 64) :
    c.peek_at offset = c.symbols.getD ((c.pos + offset.toNat) % c.symbols.length) 0 := by
  unfold Chunker.peek_at
  dsimp only
  have h1 : offset % (2 ^ 64 : Int) = offset := by
    apply Int.emod_eq_of_lt hoff
    omega
  rw [h1, Nat.mod_eq_of_lt hfit]

/-- Witness for C9 (amended): over "abc" at position 1, `peek_at(4)` is the
symbol at `(1 + 4) mod 3 = 2`. -/
theorem text_chunker_peek_at_amended_witness :
    ((0 : Int) ≤ 4 ∧ (Chunker.mk [97, 98, 99] 1 0 0 : Chunker Nat).pos + (4 : Int).toNat < 2 ^ 64) ∧
      Chunker.peek_at (Chunker.mk [97, 98, 99] 1 0 0) 4 =
        (Chunker.mk [97, 98, 99] 1 0 0 : Chunker Nat).symbols.getD ((1 + (4 : Int).toNat) % 3) 0 :=
  ⟨⟨by decide, by decide⟩,
    text_chunker_peek_at_amended (Chunker.mk [97, 98, 99] 1 0 0) 4 (by decide) (by decide)⟩

/-! ## WordChunker tokenization (`src/text/word_chunker.hpp`) -/

/-- The predicate `std::isalpha` on a byte under the default "C" locale: the ASCII letters
`A`-`Z` (65-90) and `a`-`z` (97-122). -/
def is_alpha (c : Nat) : Bool :=
  decide ((65 ≤ c ∧ c ≤ 90) ∨ (97 ≤ c ∧ c ≤ 122))

/-- The function `std::tolower` on a byte under the default "C" locale. -/
def to_lower (c : Nat) : Nat :=
  if 65 ≤ c ∧ c ≤ 90 then c + 32 else c

/-- The loop body of `WordChunker::tokenize`: the accumulator is
`(out, current)`; an alphabetic byte is lowercased and appended to `current`
(`current.push_back(tolower(uc))`), a non-alphabetic byte flushes a non-empty
`current` into `out` (`out.push_back(current); current.clear()`). -/
def tokenizeStep (acc : List (List Nat) × List Nat) (c : Nat) :
    List (List Nat) × List Nat :=
  if is_alpha c then (acc.1, acc.2 ++ [to_lower c])
  else if acc.2 = [] then acc
  else (acc.1 ++ [acc.2], [])

/-- The method `WordChunker::tokenize`: fold the loop body over the text, then flush a
trailing non-empty `current` (`if (!current.empty()) out.push_back(current)`). -/
def tokenize (text : List Nat) : List (List Nat) :=
  let r := text.foldl tokenizeStep ([], [])
  if r.2 = [] then r.1 else r.1 ++ [r.2]

/-- The recursion computed by the tokenize loop, with the pending token as an
explicit argument; used to relate the fold to the spec-level description. -/
def tokenizeGo : List Nat → List Nat → List (List Nat)
  | [], cur => if cur = [] then [] else [cur]
  | c :: rest, cur =>
    if is_alpha c then tokenizeGo rest (cur ++ [to_lower c])
    else if cur = [] then tokenizeGo rest cur
    else cur :: tokenizeGo rest []

/-- Modelled from the spec's words (the refinement target for C8): the token
list is the list of maximal runs of alphabetic characters, each lowercased,
with non-alphabetic characters acting only as separators. -/
def tokenizeSpec : List Nat → List (List Nat)
  | [] => []
  | c :: rest =>
    if h : is_alpha c then
      ((c :: rest).takeWhile is_alpha).map to_lower ::
        tokenizeSpec ((c :: rest).dropWhile is_alpha)
    else
      tokenizeSpec rest
termination_by l => l.length
decreasing_by
  · simp only [List.dropWhile_cons, h, if_pos]
    have := (List.dropWhile_sublist (l := rest) is_alpha).length_le
    simp only [List.length_cons]
    omega
  · simp only [List.length_cons]
    omega

/-- The fold of `tokenizeStep` from any accumulator is `out` followed by the
tokens `tokenizeGo` produces from the pending token. -/
theorem foldl_tokenizeStep_eq_go (text : List Nat) :
    ∀ (out : List (List Nat)) (cur : List Nat),
    (let r := text.foldl tokenizeStep (out, cur)
     if r.2 = [] then r.1 else r.1 ++ [r.2]) = out ++ tokenizeGo text cur := by
  induction text with
  | nil =>
    intro out cur
    simp only [List.foldl_nil, tokenizeGo]
    by_cases hc : cur = [] <;> simp [hc]
  | cons c rest ih =>
    intro out cur
    simp only [List.foldl_cons]
    by_cases ha : is_alpha c
    · have hstep : tokenizeStep (out, cur) c = (out, cur ++ [to_lower c]) := by
        simp [tokenizeStep, ha]
      rw [hstep, ih out (cur ++ [to_lower c]), tokenizeGo, if_pos ha]
    · by_cases hc : cur = []
      · have hstep : tokenizeStep (out, cur) c = (out, cur) := by
          simp [tokenizeStep, ha, hc]
        rw [hstep, ih out cur, tokenizeGo, if_neg ha, if_pos hc]
      · have hstep : tokenizeStep (out, cur) c = (out ++ [cur], []) := by
          simp [tokenizeStep, ha, hc]
        rw [hstep, ih (out ++ [cur]) [], tokenizeGo, if_neg ha, if_neg hc]
        simp

theorem tokenize_eq_go (text : List Nat) : tokenize text = tokenizeGo text [] := by
  have h := foldl_tokenizeStep_eq_go text [] []
  simpa [tokenize] using h

/-- While the pending token `cur` is non-empty, `tokenizeGo` first finishes
the current alphabetic run, emits `cur ++ run`, and continues after the
separator (if any). -/
theorem tokenizeGo_pending (text : List Nat) : ∀ (cur : List Nat), cur ≠ [] →
    tokenizeGo text cur =
      (cur ++ (text.takeWhile is_alpha).map to_lower) ::
        (match text.dropWhile is_alpha with
         | [] => []
         | _ :: rest => tokenizeGo rest []) := by
  induction text with
  | nil =>
    intro cur hcur
    simp only [tokenizeGo, if_neg hcur, List.takeWhile_nil, List.dropWhile_nil,
      List.map_nil, List.append_nil]
  | cons c rest ih =>
    intro cur hcur
    by_cases ha : is_alpha c
    · rw [tokenizeGo, if_pos ha, ih (cur ++ [to_lower c]) (by simp)]
      simp only [List.takeWhile_cons, List.dropWhile_cons, ha, if_pos]
      simp
    · rw [tokenizeGo, if_neg ha, if_neg hcur]
      simp only [List.takeWhile_cons, List.dropWhile_cons, ha, Bool.false_eq_true,
        if_false]
      simp

/-- Running `tokenizeGo` with an empty pending token computes `tokenizeSpec`. -/
theorem tokenizeGo_eq_tokenizeSpec (text : List Nat) :
    tokenizeGo text [] = tokenizeSpec text := by
  have key : ∀ (n : Nat) (t : List Nat), t.length ≤ n →
      tokenizeGo t [] = tokenizeSpec t := by
    intro n
    induction n with
    | zero =>
      intro t ht
      have ht0 : t = [] := List.length_eq_zero.mp (by omega)
      subst ht0
      simp [tokenizeGo, tokenizeSpec]
    | succ k ih =>
      intro t ht
      match t with
      | [] => simp [tokenizeGo, tokenizeSpec]
      | c :: rest =>
        by_cases ha : is_alpha c
        · rw [tokenizeGo, if_pos ha]
          rw [show ([] : List Nat) ++ [to_lower c] = [to_lower c] from rfl]
          rw [tokenizeGo_pending rest [to_lower c] (by simp)]
          rw [tokenizeSpec]
          simp only [ha, dite_true]
          simp only [List.takeWhile_cons, List.dropWhile_cons, ha, if_pos,
            List.map_cons, List.singleton_append]
          congr 1
          have hdrop := (List.dropWhile_sublist (l := rest) is_alpha).length_le
          match hd : rest.dropWhile is_alpha with
          | [] => rw [tokenizeSpec]
          | d :: rest' =>
            have hnd : is_alpha d = false := by
              have hh := List.head?_dropWhile_not is_alpha rest
              rw [hd] at hh
              simpa using hh
            rw [tokenizeSpec]
            simp only [hnd, Bool.false_eq_true, dite_false]
            have hlen' : rest'.length ≤ k := by
              have h1 : (d :: rest').length ≤ rest.length := by
                rw [← hd]; exact hdrop
              simp only [List.length_cons] at h1 ht
              omega
            exact ih rest' hlen'
        · rw [tokenizeGo, if_neg ha, if_pos rfl, tokenizeSpec]
          simp only [ha, Bool.false_eq_true, dite_false]
          have hlen' : rest.length ≤ k := by
            simp only [List.length_cons] at ht
            omega
          exact ih rest hlen'
  exact key text.length text (le_refl _)

/-- C8: word-mode tokenization maps any text to the sequence of its maximal
runs of alphabetic characters, each lowercased, with non-alphabetic runs as
discarded separators (`tokenize = tokenizeSpec`); in particular
"Hello, World!" tokenizes to ["hello", "world"]. -/
theorem word_chunker_tokenize_spec :
    (∀ text : List Nat, tokenize text = tokenizeSpec text) ∧
      tokenize [72, 101, 108, 108, 111, 44, 32, 87, 111, 114, 108, 100, 33] =
        [[104, 101, 108, 108, 111], [119, 111, 114, 108, 100]] :=
  ⟨fun text => (tokenize_eq_go text).trans (tokenizeGo_eq_tokenizeSpec text),
    by decide⟩

/-! ## WordRowEncoder (`src/encoders/word_row_encoder.hpp`) -/

/-- The struct `WordRowEncoder::Params`; the constructor's `validate()` rejects
non-positive `rows`, `cols`, `letter_bits`, an empty alphabet, and
`cols != letter_bits * (alphabet_size + 1)`, so the sizes are modelled as
`Nat`.  The alphabet is a byte string. -/
structure WordRowParams where
  rows : Nat
  cols : Nat
  letter_bits : Nat
  alphabet : List Nat
deriving Repr, DecidableEq

/-- The checks in `WordRowEncoder::validate()`. -/
def WordRowParams.valid (p : WordRowParams) : Prop :=
  0 < p.rows ∧ 0 < p.cols ∧ 0 < p.letter_bits ∧ p.alphabet ≠ [] ∧
    p.cols = p.letter_bits * (p.alphabet.length + 1)

instance (p : WordRowParams) : Decidable p.valid := by
  unfold WordRowParams.valid; infer_instance

/-- The method `WordRowEncoder::bucket_for_char`: lowercase the byte, look it up in the
alphabet (`std::string::find`, first occurrence); if absent, the reserved
unknown bucket `|alphabet|`. -/
def WordRowParams.bucket_for_char (p : WordRowParams) (c : Nat) : Nat :=
  match p.alphabet.findIdx? (fun a => a == to_lower c) with
  | some i => i
  | none => p.alphabet.length

/-- The row loop of `WordRowEncoder::encode`: for `r` from 0, `break` as soon
as `r` reaches the word length, otherwise write the `letter_bits`-wide block
of ones at `row_offset + start_col = r*cols + bucket*letter_bits`. -/
def WordRowParams.encodeRows (p : WordRowParams) (word : List Nat)
    (r : Nat) (sdr : List Nat) : List Nat :=
  if r < p.rows then
    if word.length ≤ r then sdr
    else
      p.encodeRows word (r + 1)
        (setOnes sdr (r * p.cols + p.bucket_for_char (word.getD r 0) * p.letter_bits)
          p.letter_bits)
  else sdr
termination_by p.rows - r

/-- The method `WordRowEncoder::encode`: run the row loop on a zero vector of length
`rows * cols`. -/
def WordRowParams.encode (p : WordRowParams) (word : List Nat) : List Nat :=
  p.encodeRows word 0 (List.replicate (p.rows * p.cols) 0)

theorem bucket_le (p : WordRowParams) (c : Nat) :
    p.bucket_for_char c ≤ p.alphabet.length := by
  unfold WordRowParams.bucket_for_char
  match hf : p.alphabet.findIdx? (fun a => a == to_lower c) with
  | some i =>
    have hi := (List.findIdx?_eq_some_iff_findIdx_eq.mp hf).1
    show i ≤ p.alphabet.length
    omega
  | none => exact le_refl _

theorem block_in_row (p : WordRowParams) (h : p.valid) (c : Nat) :
    p.bucket_for_char c * p.letter_bits + p.letter_bits ≤ p.cols := by
  have hb := bucket_le p c
  have h1 : p.bucket_for_char c * p.letter_bits ≤ p.alphabet.length * p.letter_bits :=
    Nat.mul_le_mul_right _ hb
  have h2 : p.letter_bits * (p.alphabet.length + 1) =
      p.alphabet.length * p.letter_bits + p.letter_bits := by ring
  have h3 := h.2.2.2.2
  omega

/-- An index outside row `r` lies outside row `r`'s block. -/
theorem block_index_of_other_row (cols lb r B k : Nat) (hcols : 0 < cols)
    (hBlb : B + lb ≤ cols) (hq : k / cols ≠ r) :
    k < r * cols + B ∨ r * cols + B + lb ≤ k := by
  have hmod := Nat.div_add_mod k cols
  have hklt := Nat.mod_lt k hcols
  rcases Nat.lt_or_ge (k / cols) r with hlt | hge
  · left
    have h1 : cols * (k / cols + 1) ≤ cols * r := Nat.mul_le_mul_left cols hlt
    have h2 : cols * r = r * cols := Nat.mul_comm _ _
    have h3 : cols * (k / cols + 1) = cols * (k / cols) + cols := by ring
    omega
  · have hgt : r < k / cols := by omega
    right
    have h1 : cols * (r + 1) ≤ cols * (k / cols) := Nat.mul_le_mul_left cols hgt
    have h2 : cols * (r + 1) = r * cols + cols := by ring
    omega

theorem encodeRows_length (p : WordRowParams) (word : List Nat) :
    ∀ (r : Nat) (sdr : List Nat), (p.encodeRows word r sdr).length = sdr.length := by
  have key : ∀ (fuel r : Nat), p.rows - r ≤ fuel → ∀ (sdr : List Nat),
      (p.encodeRows word r sdr).length = sdr.length := by
    intro fuel
    induction fuel with
    | zero =>
      intro r hr sdr
      rw [WordRowParams.encodeRows, if_neg (by omega)]
    | succ f ih =>
      intro r hr sdr
      rw [WordRowParams.encodeRows]
      by_cases h1 : r < p.rows
      · rw [if_pos h1]
        by_cases h2 : word.length ≤ r
        · rw [if_pos h2]
        · rw [if_neg h2, ih (r + 1) (by omega), length_setOnes]
      · rw [if_neg h1]
  intro r sdr
  exact key (p.rows - r) r (le_refl _) sdr

/-- Index-wise characterisation of the row loop: starting at row `r`, entry
`k` becomes 1 exactly when `k` lies in the block of a processed row (a row in
`[r, min(rows, |word|))`), and is otherwise left as it was. -/
theorem encodeRows_getD (p : WordRowParams) (h : p.valid) (word : List Nat) :
    ∀ (r : Nat) (sdr : List Nat), sdr.length = p.rows * p.cols →
    ∀ k, k < p.rows * p.cols →
      (p.encodeRows word r sdr).getD k 0 =
        if r ≤ k / p.cols ∧ k / p.cols < word.length ∧
            p.bucket_for_char (word.getD (k / p.cols) 0) * p.letter_bits ≤ k % p.cols ∧
            k % p.cols < p.bucket_for_char (word.getD (k / p.cols) 0) * p.letter_bits +
              p.letter_bits
        then 1 else sdr.getD k 0 := by
  have hcols : 0 < p.cols := h.2.1
  have key : ∀ (fuel r : Nat), p.rows - r ≤ fuel → ∀ (sdr : List Nat),
      sdr.length = p.rows * p.cols → ∀ k, k < p.rows * p.cols →
      (p.encodeRows word r sdr).getD k 0 =
        if r ≤ k / p.cols ∧ k / p.cols < word.length ∧
            p.bucket_for_char (word.getD (k / p.cols) 0) * p.letter_bits ≤ k % p.cols ∧
            k % p.cols < p.bucket_for_char (word.getD (k / p.cols) 0) * p.letter_bits +
              p.letter_bits
        then 1 else sdr.getD k 0 := by
    intro fuel
    induction fuel with
    | zero =>
      intro r hr sdr hlen k hk
      rw [WordRowParams.encodeRows, if_neg (by omega)]
      have hkdiv : k / p.cols < p.rows := by
        rw [Nat.div_lt_iff_lt_mul hcols]
        omega
      rw [if_neg (by omega)]
    | succ f ih =>
      intro r hr sdr hlen k hk
      have hkdiv : k / p.cols < p.rows := by
        rw [Nat.div_lt_iff_lt_mul hcols]
        omega
      rw [WordRowParams.encodeRows]
      by_cases h1 : r < p.rows
      · rw [if_pos h1]
        by_cases h2 : word.length ≤ r
        · rw [if_pos h2, if_neg (by omega)]
        · rw [if_neg h2]
          set B := p.bucket_for_char (word.getD r 0) * p.letter_bits with hB
          have hBin : B + p.letter_bits ≤ p.cols := block_in_row p h (word.getD r 0)
          have hsdr' : (setOnes sdr (r * p.cols + B) p.letter_bits).length =
              p.rows * p.cols := by rw [length_setOnes, hlen]
          rw [ih (r + 1) (by omega) _ hsdr' k hk]
          by_cases hrow : k / p.cols = r
          · rw [if_neg (by omega), getD_setOnes]
            have hmod := Nat.div_add_mod k p.cols
            rw [hrow] at hmod
            have hcomm : p.cols * r = r * p.cols := Nat.mul_comm _ _
            by_cases hblk : B ≤ k % p.cols ∧ k % p.cols < B + p.letter_bits
            · rw [if_pos ⟨by omega, by omega, by omega⟩,
                if_pos (by rw [hrow]; exact ⟨by omega, by omega, hblk.1, hblk.2⟩)]
            · rw [if_neg (by omega), if_neg (by rw [hrow]; omega)]
          · have huntouched := block_index_of_other_row p.cols p.letter_bits r B k
              hcols hBin hrow
            have hset : (setOnes sdr (r * p.cols + B) p.letter_bits).getD k 0 =
                sdr.getD k 0 := by
              rw [getD_setOnes, if_neg (by omega)]
            rw [hset]
            by_cases hcond : r + 1 ≤ k / p.cols ∧ k / p.cols < word.length ∧
                p.bucket_for_char (word.getD (k / p.cols) 0) * p.letter_bits ≤ k % p.cols ∧
                k % p.cols < p.bucket_for_char (word.getD (k / p.cols) 0) * p.letter_bits +
                  p.letter_bits
            · rw [if_pos hcond, if_pos (by omega)]
            · rw [if_neg hcond, if_neg (by omega)]
      · rw [if_neg h1, if_neg (by omega)]
  intro r sdr hlen k hk
  exact key (p.rows - r) r (le_refl _) sdr hlen k hk

/-- C7: for every valid `WordRowEncoder` configuration and every word,
`encode(word)` has length `rows * cols`; every row `r ≥ |word|` is entirely
zero; and every row `r < min(rows, |word|)` is zero except for a single
contiguous block of `letter_bits` ones at columns
`[bucket*letter_bits, (bucket+1)*letter_bits)`, where `bucket` is the index
of the lowercased `word[r]` in the alphabet, or `|alphabet|` (the reserved
unknown bucket) when absent. -/
theorem word_row_encode_characterization (p : WordRowParams) (h : p.valid)
    (word : List Nat) :
    (p.encode word).length = p.rows * p.cols ∧
      (∀ r j, r < p.rows → word.length ≤ r → j < p.cols →
        (p.encode word).getD (r * p.cols + j) 0 = 0) ∧
      (∀ r j, r < p.rows → r < word.length → j < p.cols →
        (p.encode word).getD (r * p.cols + j) 0 =
          if p.bucket_for_char (word.getD r 0) * p.letter_bits ≤ j ∧
              j < p.bucket_for_char (word.getD r 0) * p.letter_bits + p.letter_bits
          then 1 else 0) := by
  have hcols : 0 < p.cols := h.2.1
  have hidx : ∀ r j, r < p.rows → j < p.cols →
      (r * p.cols + j) / p.cols = r ∧ (r * p.cols + j) % p.cols = j ∧
        r * p.cols + j < p.rows * p.cols := by
    intro r j hr hj
    have hdiv : (r * p.cols + j) / p.cols = r := by
      apply Nat.div_eq_of_lt_le
      · omega
      · have hexp : (r + 1) * p.cols = r * p.cols + p.cols := by ring
        omega
    have hmod := Nat.div_add_mod (r * p.cols + j) p.cols
    rw [hdiv] at hmod
    have hcomm : p.cols * r = r * p.cols := Nat.mul_comm _ _
    have hbound : (r + 1) * p.cols ≤ p.rows * p.cols :=
      Nat.mul_le_mul_right _ (by omega)
    have hexp : (r + 1) * p.cols = r * p.cols + p.cols := by ring
    exact ⟨hdiv, by omega, by omega⟩
  have hgetrep : ∀ k, (List.replicate (p.rows * p.cols) (0 : Nat)).getD k 0 = 0 := by
    intro k
    rw [List.getD_eq_getElem?_getD, List.getElem?_replicate]
    split <;> rfl
  refine ⟨?_, ?_, ?_⟩
  · unfold WordRowParams.encode
    rw [encodeRows_length, List.length_replicate]
  · intro r j hr hw hj
    obtain ⟨hdiv, hmod, hk⟩ := hidx r j hr hj
    unfold WordRowParams.encode
    rw [encodeRows_getD p h word 0 _ (by simp) _ hk, hdiv, hmod]
    rw [if_neg (by omega), hgetrep]
  · intro r j hr hw hj
    obtain ⟨hdiv, hmod, hk⟩ := hidx r j hr hj
    unfold WordRowParams.encode
    rw [encodeRows_getD p h word 0 _ (by simp) _ hk, hdiv, hmod]
    by_cases hblk : p.bucket_for_char (word.getD r 0) * p.letter_bits ≤ j ∧
        j < p.bucket_for_char (word.getD r 0) * p.letter_bits + p.letter_bits
    · rw [if_pos ⟨by omega, hw, hblk.1, hblk.2⟩, if_pos hblk]
    · rw [if_neg (by omega), if_neg hblk, hgetrep]

/-- Witness for C7: the default configuration `{rows=5, cols=108,
letter_bits=4, alphabet="abcdefghijklmnopqrstuvwxyz"}` encoding the word
"ab" has length `5 * 108`. -/
theorem word_row_encode_characterization_witness :
    ((WordRowParams.mk 5 108 4
        [97, 98, 99, 100, 101, 102, 103, 104, 105, 106, 107, 108, 109, 110,
         111, 112, 113, 114, 115, 116, 117, 118, 119, 120, 121, 122]).valid) ∧
      ((WordRowParams.mk 5 108 4
        [97, 98, 99, 100, 101, 102, 103, 104, 105, 106, 107, 108, 109, 110,
         111, 112, 113, 114, 115, 116, 117, 118, 119, 120, 121, 122]).encode
          [97, 98]).length = 5 * 108 := by
  constructor
  · decide
  · exact (word_row_encode_characterization _ (by decide) [97, 98]).1

/-! ## TextRuntime prediction accuracy (`src/runtime/text_runtime.cpp`) -/

/-- One entry of `htm_gui::Snapshot::column_cell_masks`: `TextRuntime::step`
reads only the `predictive` field (nonzero means some cell of that column is
currently predictive). -/
structure ColumnCellMask where
  predictive : Nat
deriving Repr, DecidableEq

/-- The part of the external model's snapshot that `TextRuntime::step` reads:
the currently active column indices (C++ `int`, possibly out of bounds) and
the per-column cell masks. -/
structure Snapshot where
  active_column_indices : List Int
  column_cell_masks : List ColumnCellMask
deriving Repr, DecidableEq

/-- The counting loop in `TextRuntime::step`: over `active_column_indices`,
an in-bounds index increments `total_active`, and additionally
`predicted_and_active` when its mask is nonzero.  Returns
`(predicted_and_active, total_active)`. -/
def countPredicted (snap : Snapshot) : Nat × Nat :=
  snap.active_column_indices.foldl
    (fun acc idx =>
      if 0 ≤ idx ∧ idx < (snap.column_cell_masks.length : Int) then
        if (snap.column_cell_masks.getD idx.toNat ⟨0⟩).predictive ≠ 0 then
          (acc.1 + 1, acc.2 + 1)
        else (acc.1, acc.2 + 1)
      else acc)
    (0, 0)

/-- The accuracy counters owned by `TextRuntime`
(`correct_predictions_`, `total_predictions_`; both start at 0). -/
structure RuntimeCounters where
  correct_predictions : Nat
  total_predictions : Nat
deriving Repr, DecidableEq

/-- The prediction-check block at the top of each `TextRuntime::step`
iteration: when the snapshot exposes per-column predictive data
(`!snap.column_cell_masks.empty()`), increment `correct_predictions_` iff
`total_active > 0 && predicted_and_active > total_active / 2`, and always
increment `total_predictions_`. -/
def predictionCheck (snap : Snapshot) (s : RuntimeCounters) : RuntimeCounters :=
  if snap.column_cell_masks = [] then s
  else
    let pa := (countPredicted snap).1
    let ta := (countPredicted snap).2
    { correct_predictions :=
        if 0 < ta ∧ ta / 2 < pa then s.correct_predictions + 1
        else s.correct_predictions,
      total_predictions := s.total_predictions + 1 }

/-- The gate guarding the prediction check in `TextRuntime::step`:
`total_predictions_ > 0 || region_->timestep() > 0` (the check is skipped
only before the model has ever been stepped). -/
def checkGate (s : RuntimeCounters) (timestep : Nat) : Bool :=
  decide (0 < s.total_predictions) || decide (0 < timestep)

/-- One iteration of the `TextRuntime::step` loop restricted to the accuracy
counters: run the prediction check when the gate allows; the rest of the
iteration (feeding the next symbol to the model) does not touch them. -/
def stepCounters (snap : Snapshot) (timestep : Nat) (s : RuntimeCounters) :
    RuntimeCounters :=
  if checkGate s timestep then predictionCheck snap s else s

/-- The method `TextRuntime::prediction_accuracy()`: `0.0` when `total_predictions_` is
zero, else `correct_predictions_ / total_predictions_` (the C++ divides in
`double`; the exact quotient is modelled). -/
def prediction_accuracy (s : RuntimeCounters) : Rat :=
  if s.total_predictions = 0 then 0
  else (s.correct_predictions : Rat) / (s.total_predictions : Rat)

/-- Counter states reachable in a `TextRuntime`: both constructors zero the
counters, and each step iteration updates them through `stepCounters` with
whatever snapshot and timestep the external model exposes. -/
inductive ReachableCounters : RuntimeCounters → Prop
  | init : ReachableCounters ⟨0, 0⟩
  | step (snap : Snapshot) (timestep : Nat) {s : RuntimeCounters} :
      ReachableCounters s → ReachableCounters (stepCounters snap timestep s)

/-- C2: in every step iteration in which the prediction check runs (the gate
holds) and the snapshot exposes per-column predictive data,
`total_predictions` increments by one, and `correct_predictions` increments
exactly when `total_active > 0` and `predicted_and_active > total_active/2`
(a strict majority of the active columns had a predictive cell); and
`prediction_accuracy()` is `correct/total`, or `0` when `total = 0`. -/
theorem runtime_prediction_check_spec (snap : Snapshot) (timestep : Nat)
    (s : RuntimeCounters) (hgate : checkGate s timestep = true)
    (hmasks : snap.column_cell_masks ≠ []) :
    (stepCounters snap timestep s).total_predictions = s.total_predictions + 1 ∧
      ((stepCounters snap timestep s).correct_predictions = s.correct_predictions + 1 ↔
        0 < (countPredicted snap).2 ∧
          (countPredicted snap).2 / 2 < (countPredicted snap).1) ∧
      ((stepCounters snap timestep s).correct_predictions = s.correct_predictions ↔
        ¬ (0 < (countPredicted snap).2 ∧
          (countPredicted snap).2 / 2 < (countPredicted snap).1)) ∧
      (∀ t : RuntimeCounters, 0 < t.total_predictions →
        prediction_accuracy t = (t.correct_predictions : Rat) / (t.total_predictions : Rat)) ∧
      (∀ t : RuntimeCounters, t.total_predictions = 0 → prediction_accuracy t = 0) := by
  unfold stepCounters
  rw [if_pos hgate]
  unfold predictionCheck
  rw [if_neg hmasks]
  refine ⟨rfl, ?_, ?_, ?_, ?_⟩
  · dsimp only
    by_cases hc : 0 < (countPredicted snap).2 ∧
        (countPredicted snap).2 / 2 < (countPredicted snap).1
    · rw [if_pos hc]
      simp [hc]
    · rw [if_neg hc]
      simp [hc]
  · dsimp only
    by_cases hc : 0 < (countPredicted snap).2 ∧
        (countPredicted snap).2 / 2 < (countPredicted snap).1
    · rw [if_pos hc]
      simp [hc]
    · rw [if_neg hc]
      simp [hc]
  · intro t ht
    unfold prediction_accuracy
    rw [if_neg (by omega)]
  · intro t ht
    unfold prediction_accuracy
    rw [if_pos ht]

/-- Witness for C2: a two-column snapshot with one predictive active column
out of two active; the gate holds because a prediction was already recorded.
`total` goes from 1 to 2. -/
theorem runtime_prediction_check_spec_witness :
    (checkGate ⟨0, 1⟩ 1 = true ∧
        (Snapshot.mk [0, 1] [⟨1⟩, ⟨0⟩]).column_cell_masks ≠ []) ∧
      (stepCounters (Snapshot.mk [0, 1] [⟨1⟩, ⟨0⟩]) 1 ⟨0, 1⟩).total_predictions = 1 + 1 :=
  ⟨⟨by decide, by decide⟩,
    (runtime_prediction_check_spec (Snapshot.mk [0, 1] [⟨1⟩, ⟨0⟩]) 1 ⟨0, 1⟩
      (by decide) (by decide)).1⟩

/-- C10: after any sequence of `TextRuntime` operations,
`correct_predictions ≤ total_predictions`, and `prediction_accuracy()` lies
in `[0, 1]`. -/
theorem runtime_accuracy_in_unit_interval (s : RuntimeCounters)
    (h : ReachableCounters s) :
    s.correct_predictions ≤ s.total_predictions ∧
      0 ≤ prediction_accuracy s ∧ prediction_accuracy s ≤ 1 := by
  have hle : s.correct_predictions ≤ s.total_predictions := by
    induction h with
    | init => exact le_refl 0
    | step snap timestep hs ih =>
      unfold stepCounters
      split
      · unfold predictionCheck
        split
        · exact ih
        · dsimp only
          split <;> omega
      · exact ih
  refine ⟨hle, ?_, ?_⟩
  · unfold prediction_accuracy
    split
    · exact le_refl 0
    · apply div_nonneg <;> positivity
  · unfold prediction_accuracy
    split
    · norm_num
    · rw [div_le_one (by positivity)]
      exact_mod_cast hle

/-- Witness for C10 at the freshly constructed runtime (both counters 0). -/
theorem runtime_accuracy_in_unit_interval_witness :
    ReachableCounters ⟨0, 0⟩ ∧
      ((0 : Nat) ≤ (0 : Nat) ∧ 0 ≤ prediction_accuracy ⟨0, 0⟩ ∧
        prediction_accuracy ⟨0, 0⟩ ≤ 1) :=
  ⟨ReachableCounters.init,
    runtime_accuracy_in_unit_interval ⟨0, 0⟩ ReachableCounters.init⟩

end ChatHtm
